import Mathlib

/-
Verification of the dca loss family (src/dca/loss.py) and the output-head
activations (src/dca/network.py).

Tensors are modelled as lists, elementwise.  Scalars carry the float special
values that the TensorFlow computation can produce: a finite real, plus or
minus infinity, or NaN.  Count tensors (y_true) may contain the NaN missing
sentinel; predicted parameter tensors are real-valued lists (they are produced
by activations that keep them finite).  tf.math.log, tf.math.lgamma and
tf.pow are modelled by Real.log, log of Real.Gamma and Real.rpow; note that
Real.log already behaves as log of the absolute value, matching lgamma's
log-of-absolute-Gamma on positive arguments, and the losses only apply these
to arguments whose sign is controlled by hypotheses where it matters.
-/

noncomputable section

/-- A float-like scalar: finite real, plus infinity, minus infinity, or NaN. -/
inductive Val where
  | nan : Val
  | pinf : Val
  | ninf : Val
  | fin : ℝ → Val

/-- tf.math.is_nan. -/
def Val.isNaN : Val → Bool
  | .nan => true
  | _ => false

/-- The helper nan2zero from loss.py: tf.where(is_nan x, 0, x). -/
def nan2zero : Val → Val
  | .nan => .fin 0
  | .pinf => .pinf
  | .ninf => .ninf
  | .fin x => .fin x

/-- The helper nan2inf from loss.py: tf.where(is_nan x, +inf, x). -/
def nan2inf : Val → Val
  | .nan => .pinf
  | .pinf => .pinf
  | .ninf => .ninf
  | .fin x => .fin x

/-- IEEE-style addition on float-like scalars: NaN propagates, opposite
infinities give NaN. -/
def Val.add : Val → Val → Val
  | .fin a, .fin b => .fin (a + b)
  | .fin _, .pinf => .pinf
  | .pinf, .fin _ => .pinf
  | .pinf, .pinf => .pinf
  | .fin _, .ninf => .ninf
  | .ninf, .fin _ => .ninf
  | .ninf, .ninf => .ninf
  | .pinf, .ninf => .nan
  | .ninf, .pinf => .nan
  | .nan, _ => .nan
  | _, .nan => .nan

/-- Negation on float-like scalars. -/
def Val.neg : Val → Val
  | .fin a => .fin (-a)
  | .pinf => .ninf
  | .ninf => .pinf
  | .nan => .nan

/-- Subtraction on float-like scalars. -/
def Val.sub (a b : Val) : Val := a.add b.neg

/-- Strict order on float-like scalars; NaN compares false against
everything, mirroring float comparisons. -/
def Val.lt : Val → Val → Prop
  | .fin a, .fin b => a < b
  | .ninf, .fin _ => True
  | .ninf, .pinf => True
  | .fin _, .pinf => True
  | _, _ => False

/-- tf.reduce_sum over the elements of a tensor. -/
def sumV (l : List Val) : Val := l.foldr Val.add (Val.fin 0)

/-- The helper nelem from loss.py: the number of non-NaN entries as a float,
with an all-NaN tensor giving 1 instead of 0.  This is the countValid
function of the specification. -/
def nelemV (l : List Val) : ℝ :=
  let n := (l.filter fun v => !v.isNaN).length
  if n = 0 then 1 else (n : ℝ)

/-- tf.divide of a reduced scalar by a positive element count.  The losses
only divide by nelem (which is at least 1) or by a tensor size; a
nonpositive divisor yields NaN, matching float 0/0 for the one reachable
case (mean of an empty tensor). -/
def divV (v : Val) (c : ℝ) : Val :=
  if 0 < c then
    match v with
    | .fin x => .fin (x / c)
    | .pinf => .pinf
    | .ninf => .ninf
    | .nan => .nan
  else .nan

/-- The helper reduce_mean from loss.py: zero out NaN entries, sum, divide
by the non-NaN count.  This is the maskedMean of the specification. -/
def reduceMeanV (l : List Val) : Val := divV (sumV (l.map nan2zero)) (nelemV l)

/-- tf.math.log on a real argument: positive reals give their logarithm,
zero gives minus infinity, negative arguments give NaN. -/
def mlogR (x : ℝ) : Val :=
  if 0 < x then .fin (Real.log x)
  else if x = 0 then .ninf
  else .nan

/-- The numerical-stability constant 1e-10 used by every loss. -/
def eps : ℝ := 1 / 10 ^ 10

/-- The dispersion clip bound 1e6 (also the default per-call theta). -/
def thetaCap : ℝ := 10 ^ 6

/-- The zero-detection threshold 1e-8 of the ZINB branch selection. -/
def zeroThreshold : ℝ := 1 / 10 ^ 8

/-- tf.math.lgamma: log of the (absolute value of the) Gamma function. -/
def lgamma (x : ℝ) : ℝ := Real.log (Real.Gamma x)

/-- The per-element NB negative log-likelihood t1 + t2 of NB.loss
(loss.py lines 87-88); t is the already clipped per-call theta and m the
already scaled predicted mean. -/
def nbElem (t y m : ℝ) : ℝ :=
  (lgamma (t + eps) + lgamma (y + 1) - lgamma (y + t + eps))
  + ((t + y) * Real.log (1 + m / (t + eps)) + y * (Real.log (t + eps) - Real.log (m + eps)))

/-- The per-element NB computation on a float-like count: a NaN (or infinite)
count propagates to NaN through the lgamma and log terms. -/
def nbElemV (t m : ℝ) : Val → Val
  | .fin y => .fin (nbElem t y m)
  | _ => .nan

/-- Configuration held by an NB loss object: the stored dispersion tensor
(self.theta), the masking flag and the scale factor.  eps is fixed to 1e-10
as in the constructor. -/
structure NBCfg where
  theta : List ℝ
  masking : Bool
  scale_factor : ℝ

/-- The unreduced (mean=False) path of NB.loss: optionally zero the NaN
counts, clip the per-call theta at 1e6, scale the predicted mean, form
t1 + t2 elementwise, and map per-element NaN to +inf.  Note that the stored
cfg.theta is not read here: the code's theta is the per-call argument tc. -/
def NB.lossElems (cfg : NBCfg) (tc : List ℝ) (y : List Val) (mu : List ℝ) : List Val :=
  let y2 := if cfg.masking then y.map nan2zero else y
  List.zipWith (fun yv q => nan2inf (nbElemV (min q.1 thetaCap) (q.2 * cfg.scale_factor) yv))
    y2 (tc.zip mu)

/-- The reduced (mean=True) path of NB.loss: sum divided by the valid count
of y when masking, plain mean otherwise. -/
def NB.loss (cfg : NBCfg) (tc : List ℝ) (y : List Val) (mu : List ℝ) : Val :=
  let elems := NB.lossElems cfg tc y mu
  if cfg.masking then divV (sumV elems) (nelemV y) else divV (sumV elems) elems.length

/-- NB.loss called without an explicit theta argument: the per-call theta
defaults to the scalar 1e6, broadcast over the tensor. -/
def NB.lossDefault (cfg : NBCfg) (y : List Val) (mu : List ℝ) : Val :=
  NB.loss cfg (List.replicate y.length thetaCap) y mu

/-- The per-element Poisson term of poisson_loss (loss.py line 46),
on an already zeroed count. -/
def poissonRet (y lam : ℝ) : ℝ := lam - y * Real.log (lam + eps) + lgamma (y + 1)

/-- The per-element Poisson term on a float-like count. -/
def poissonRetV (lam : ℝ) : Val → Val
  | .fin y => .fin (poissonRet y lam)
  | _ => .nan

/-- poisson_loss from loss.py: count the valid entries of y, zero its NaNs,
apply the per-element term, and divide the sum by the valid count. -/
def poisson_loss (y : List Val) (lam : List ℝ) : Val :=
  let n := nelemV y
  let y0 := y.map nan2zero
  divV (sumV (List.zipWith (fun yv l => poissonRetV l yv) y0 lam)) n

/-- The per-element ZINB computation of ZINB.loss (loss.py lines 130-140):
nbv is the per-element value of the inner NB call, t the stored dispersion
entry, pi the dropout probability, lr the ridge weight, s the scale factor.
The zero branch is selected by tf.less(y, 1e-8), which is false on a NaN
count. -/
def zinbElem (s lr : ℝ) (yv : Val) (mu t pi : ℝ) (nbv : Val) : Val :=
  let nbCase := Val.sub nbv (mlogR (1 - pi + eps))
  let t2 := min t thetaCap
  let mus := mu * s
  let zeroNB := (t2 / (t2 + mus + eps)) ^ t2
  let zeroCase := Val.neg (mlogR (pi + (1 - pi) * zeroNB + eps))
  let sel := match yv with
    | .fin yr => if yr < zeroThreshold then zeroCase else nbCase
    | .ninf => zeroCase
    | _ => nbCase
  Val.add sel (Val.fin (lr * pi ^ 2))

/-- The unreduced element list of ZINB.loss.  The inner NB call is
super().loss(y_true, y_pred, mean=False), i.e. with the per-call theta left
at its default 1e6; the stored cfg.theta is used only in the zero branch. -/
def ZINB.lossElems (cfg : NBCfg) (pl : List ℝ) (lr : ℝ) (y : List Val) (mu : List ℝ) :
    List Val :=
  let nbv := NB.lossElems cfg (List.replicate y.length thetaCap) y mu
  (y.zip (mu.zip ((cfg.theta.zip pl).zip nbv))).map
    fun q => zinbElem cfg.scale_factor lr q.1 q.2.1 q.2.2.1.1 q.2.2.1.2 q.2.2.2

/-- The reduced ZINB loss (mean=True): masked reduce_mean or plain mean,
followed by the NaN to infinity mapping applied to the reduced scalar
(loss.py lines 142-148). -/
def ZINB.loss (cfg : NBCfg) (pl : List ℝ) (lr : ℝ) (y : List Val) (mu : List ℝ) : Val :=
  let elems := ZINB.lossElems cfg pl lr y mu
  nan2inf (if cfg.masking then reduceMeanV elems else divV (sumV elems) elems.length)

/-- Keras softplus. -/
def softplusR (x : ℝ) : ℝ := Real.log (Real.exp x + 1)

/-- tf.math.reduce_logsumexp over a stack of two elementwise tensors. -/
def lseV : Val → Val → Val
  | .fin a, .fin b => .fin (Real.log (Real.exp a + Real.exp b))
  | .nan, _ => .nan
  | _, .nan => .nan
  | .pinf, _ => .pinf
  | _, .pinf => .pinf
  | .ninf, v => v
  | v, .ninf => v

/-- One element of the two-component mixture: logsumexp of the gated first
branch against the second branch, plus softplus of the gate. -/
def mixElem (e1 e2 : Val) (g : ℝ) : Val :=
  Val.add (lseV (Val.sub e1 (Val.fin g)) e2) (Val.fin (softplusR g))

/-- CombNBLoss.loss from loss.py: branch means are y_pred and y_pred*alpha,
branches are the unreduced NB likelihoods at theta1 and theta2, the gate is
the stored pi tensor; masked mean and final NaN to infinity mapping. -/
def CombNBLoss.loss (cfg : NBCfg) (pl al t1l t2l : List ℝ) (y : List Val)
    (ypred : List ℝ) : Val :=
  let mean1 := ypred
  let mean2 := List.zipWith (· * ·) mean1 al
  let b1 := NB.lossElems cfg t1l y mean1
  let b2 := NB.lossElems cfg t2l y mean2
  let res := (b1.zip (b2.zip pl)).map fun q => mixElem q.1 q.2.1 q.2.2
  nan2inf (reduceMeanV res)

/-- CombNBLossSimple.loss from loss.py: branch means are the stored tensors
mean1 and mean2, and the gate is the model prediction y_pred. -/
def CombNBLossSimple.loss (cfg : NBCfg) (m1 m2 t1l t2l : List ℝ) (y : List Val)
    (ypred : List ℝ) : Val :=
  let pi := ypred
  let b1 := NB.lossElems cfg t1l y m1
  let b2 := NB.lossElems cfg t2l y m2
  let res := (b1.zip (b2.zip pi)).map fun q => mixElem q.1 q.2.1 q.2.2
  nan2inf (reduceMeanV res)

/-- The mixture reduction as the specification states it: masked mean of
logsumexp(branch1 - gate, branch2) + softplus(gate), then NaN to infinity. -/
def mixReduce (b1 b2 : List Val) (gate : List ℝ) : Val :=
  nan2inf (reduceMeanV ((b1.zip (b2.zip gate)).map fun q => mixElem q.1 q.2.1 q.2.2))

/-- tf.clip_by_value. -/
def clipByValue (x lo hi : ℝ) : ℝ := max lo (min x hi)

/-- The mean activation of network.py line 38: exp clipped to the range
from 1e-5 to 1e6. -/
def MeanAct (x : ℝ) : ℝ := clipByValue (Real.exp x) (1 / 10 ^ 5) (10 ^ 6)

/-- The dispersion activation of network.py line 39: softplus clipped to the
range from 1e-4 to 1e4. -/
def DispAct (x : ℝ) : ℝ := clipByValue (softplusR x) (1 / 10 ^ 4) (10 ^ 4)

/-- The sigmoid activation used by the dropout-probability heads. -/
def sigmoidR (x : ℝ) : ℝ := 1 / (1 + Real.exp (-x))

/-- The NB per-element formula exactly as the claim states it, with the
clipped dispersion written as min theta 1e6 and the scaled mean as s*mu. -/
def nbClaimFormula (s t y mu : ℝ) : ℝ :=
  lgamma (min t thetaCap + eps) + lgamma (y + 1) - lgamma (y + min t thetaCap + eps)
  + (min t thetaCap + y) * Real.log (1 + s * mu / (min t thetaCap + eps))
  + y * (Real.log (min t thetaCap + eps) - Real.log (s * mu + eps))

/-- The real count list obtained by zeroing the missing entries of a count
tensor whose entries are all finite or NaN. -/
def toZeroed (y : List Val) : List ℝ :=
  y.map fun v => match v with | .fin x => x | _ => 0

/-- Real-valued mirror of NB.lossElems on an all-finite count list. -/
def realNBElems (s : ℝ) (tc yr mu : List ℝ) : List ℝ :=
  List.zipWith (fun y q => nbElem (min q.1 thetaCap) y (q.2 * s)) yr (tc.zip mu)

/-- Real-valued mirror of zinbElem for finite inputs with in-range
parameters; b is the value of the inner NB branch. -/
def zinbElemR (s lr y mu t pi b : ℝ) : ℝ :=
  (if y < zeroThreshold then
     -Real.log (pi + (1 - pi) * ((min t thetaCap / (min t thetaCap + mu * s + eps)) ^ (min t thetaCap)) + eps)
   else b - Real.log (1 - pi + eps)) + lr * pi ^ 2

/-- Real-valued mirror of ZINB.lossElems on an all-finite count list. -/
def realZinbElems (tl pl : List ℝ) (s lr : ℝ) (yr mu : List ℝ) : List ℝ :=
  (yr.zip (mu.zip ((tl.zip pl).zip (realNBElems s (List.replicate yr.length thetaCap) yr mu)))).map
    fun q => zinbElemR s lr q.1 q.2.1 q.2.2.1.1 q.2.2.1.2 q.2.2.2

/-- Summation commutes with the finite embedding. -/
theorem sumV_map_fin (l : List ℝ) : sumV (l.map Val.fin) = Val.fin l.sum := by
  induction l with
  | nil => rfl
  | cons a l ih =>
    show (Val.fin a).add (sumV (l.map Val.fin)) = Val.fin (a :: l).sum
    rw [ih, List.sum_cons]
    rfl

/-- NaN absorbs addition on the left. -/
theorem Val.nan_add (v : Val) : Val.nan.add v = Val.nan := by cases v <;> rfl

/-- NaN absorbs addition on the right. -/
theorem Val.add_nan (v : Val) : v.add Val.nan = Val.nan := by cases v <;> rfl

/-- Zeroing NaNs is the identity on an all-finite tensor. -/
theorem map_nan2zero_fin (l : List ℝ) : (l.map Val.fin).map nan2zero = l.map Val.fin := by
  induction l with
  | nil => rfl
  | cons a l ih =>
    show nan2zero (Val.fin a) :: (l.map Val.fin).map nan2zero = Val.fin a :: l.map Val.fin
    rw [ih]
    rfl

/-- The valid count of an all-finite nonempty tensor is its length. -/
theorem nelemV_map_fin (l : List ℝ) (h : l ≠ []) : nelemV (l.map Val.fin) = l.length := by
  unfold nelemV
  have hfilter : ((l.map Val.fin).filter fun v => !v.isNaN) = l.map Val.fin := by
    apply List.filter_eq_self.2
    intro v hv
    rcases List.mem_map.1 hv with ⟨x, _, rfl⟩
    rfl
  rw [hfilter, List.length_map]
  have : l.length ≠ 0 := fun hc => h (List.length_eq_zero.1 hc)
  simp [this]

/-- Division of a finite value by a positive count. -/
theorem divV_fin {c : ℝ} (x : ℝ) (h : 0 < c) : divV (Val.fin x) c = Val.fin (x / c) := by
  simp [divV, h]

/-- Division never rescues a NaN. -/
theorem divV_nan (c : ℝ) : divV Val.nan c = Val.nan := by
  unfold divV; split <;> rfl

/-- A NaN element poisons the whole sum. -/
theorem sumV_eq_nan {l : List Val} (h : Val.nan ∈ l) : sumV l = Val.nan := by
  induction l with
  | nil => cases h
  | cons a l ih =>
    rcases List.mem_cons.1 h with rfl | hmem
    · show Val.nan.add (sumV l) = Val.nan
      exact Val.nan_add _
    · show a.add (sumV l) = Val.nan
      rw [ih hmem, Val.add_nan]

/-- Adding a finite value on the right threads through an addition. -/
theorem Val.add_fin_right_assoc (v w : Val) (c : ℝ) :
    v.add (w.add (Val.fin c)) = (v.add w).add (Val.fin c) := by
  cases v <;> cases w <;> simp [Val.add] <;> try ring

/-- A finite summand can be postponed past another addition. -/
theorem Val.add_fin_swap (v w : Val) (c : ℝ) :
    (v.add (Val.fin c)).add w = (v.add w).add (Val.fin c) := by
  cases v <;> cases w <;> simp [Val.add] <;> try ring

/-- Two finite summands merge. -/
theorem Val.add_fin_fin (v : Val) (a b : ℝ) :
    (v.add (Val.fin a)).add (Val.fin b) = v.add (Val.fin (a + b)) := by
  cases v <;> simp [Val.add] <;> try ring

/-- The NB element list on an all-finite count tensor is the finite embedding
of its real-valued mirror, for either masking mode. -/
theorem NB.lossElems_map_fin (cfg : NBCfg) (tc yr mu : List ℝ) :
    NB.lossElems cfg tc (yr.map Val.fin) mu
      = (realNBElems cfg.scale_factor tc yr mu).map Val.fin := by
  unfold NB.lossElems realNBElems
  cases hm : cfg.masking <;>
    simp only [hm, Bool.false_eq_true, if_false, if_true, map_nan2zero_fin] <;>
    · rw [List.zipWith_map_left, List.map_zipWith]
      rfl

/-- The Poisson element computation on a zeroed all-finite tensor. -/
theorem poisson_elems_map_fin (yr lam : List ℝ) :
    List.zipWith (fun yv l => poissonRetV l yv) (yr.map Val.fin) lam
      = (List.zipWith (fun y l => poissonRet y l) yr lam).map Val.fin := by
  rw [List.zipWith_map_left, List.map_zipWith]
  rfl

/-- countValid is at least one on every tensor. -/
theorem one_le_nelemV (x : List Val) : 1 ≤ nelemV x := by
  unfold nelemV
  by_cases h : ((x.filter fun v => !v.isNaN).length = 0)
  · simp [h]
  · have h1 : 1 ≤ (x.filter fun v => !v.isNaN).length := Nat.one_le_iff_ne_zero.2 h
    simp only [h, if_false]
    exact_mod_cast h1

/-- countValid is positive, so masked reductions never divide by zero. -/
theorem nelemV_pos (x : List Val) : 0 < nelemV x := lt_of_lt_of_le one_pos (one_le_nelemV x)

/-- countValid of an all-missing tensor is one. -/
theorem nelemV_all_nan (x : List Val) (hall : ∀ v ∈ x, v.isNaN = true) : nelemV x = 1 := by
  unfold nelemV
  have : (x.filter fun v => !v.isNaN) = [] := by
    apply List.filter_eq_nil_iff.2
    intro v hv
    simp [hall v hv]
  simp [this]

/-- C8: countValid is at least 1 on every tensor, and equals 1 on an
all-missing tensor, so masked reductions never divide by zero. -/
theorem C8_countValid (x : List Val) :
    1 ≤ nelemV x ∧ ((∀ v ∈ x, v.isNaN = true) → nelemV x = 1) :=
  ⟨one_le_nelemV x, nelemV_all_nan x⟩

/-- C8 witness: the all-missing singleton tensor. -/
theorem C8_witness : 1 ≤ nelemV [Val.nan] ∧ nelemV [Val.nan] = 1 :=
  ⟨(C8_countValid [Val.nan]).1,
   (C8_countValid [Val.nan]).2 (by intro v hv; simp at hv; subst hv; rfl)⟩

/-- C9: the mean activation lands strictly positive inside the clip range
from 1e-5 to 1e6, the dispersion activation is strictly positive, and the
sigmoid dropout-probability activation lands in the closed unit interval. -/
theorem C9_activations (x : ℝ) :
    (0 < MeanAct x ∧ 1 / 10 ^ 5 ≤ MeanAct x ∧ MeanAct x ≤ 10 ^ 6)
    ∧ 0 < DispAct x
    ∧ (0 ≤ sigmoidR x ∧ sigmoidR x ≤ 1) := by
  have hexp : (0 : ℝ) < Real.exp (-x) := Real.exp_pos _
  refine ⟨⟨?_, ?_, ?_⟩, ?_, ?_, ?_⟩
  · have : (1 / 10 ^ 5 : ℝ) ≤ MeanAct x := le_max_left _ _
    linarith [this]
  · exact le_max_left _ _
  · exact max_le (by norm_num) (min_le_right _ _)
  · have : (1 / 10 ^ 4 : ℝ) ≤ DispAct x := le_max_left _ _
    linarith [this]
  · unfold sigmoidR
    positivity
  · unfold sigmoidR
    rw [div_le_one (by linarith)]
    linarith

/-- C10: NB.loss never reads the dispersion stored at construction: two
objects differing only in the constructor theta produce identical losses,
and a call without an explicit theta uses the broadcast default 1e6. -/
theorem C10_stored_theta_unused (t1 t2 : List ℝ) (m : Bool) (s : ℝ)
    (tc : List ℝ) (y : List Val) (mu : List ℝ) :
    NB.lossDefault ⟨t1, m, s⟩ y mu = NB.lossDefault ⟨t2, m, s⟩ y mu
    ∧ NB.lossDefault ⟨t1, m, s⟩ y mu
        = NB.loss ⟨t1, m, s⟩ (List.replicate y.length thetaCap) y mu
    ∧ NB.loss ⟨t1, m, s⟩ tc y mu = NB.loss ⟨t2, m, s⟩ tc y mu :=
  ⟨rfl, rfl, rfl⟩

/-- The stability constant is positive. -/
theorem eps_pos : 0 < eps := by norm_num [eps]

/-- The dispersion cap is positive. -/
theorem thetaCap_pos : 0 < thetaCap := by norm_num [thetaCap]

/-- tf.math.log of a positive real is finite. -/
theorem mlogR_pos {x : ℝ} (h : 0 < x) : mlogR x = Val.fin (Real.log x) := by
  simp [mlogR, h]

/-- tf.math.log of a negative real is NaN. -/
theorem mlogR_neg {x : ℝ} (h : x < 0) : mlogR x = Val.nan := by
  simp [mlogR, not_lt.2 h.le, h.ne]

/-- Subtraction of finite values. -/
theorem Val.sub_fin_fin (a b : ℝ) :
    Val.sub (Val.fin a) (Val.fin b) = Val.fin (a - b) := by
  simp [Val.sub, Val.neg, Val.add, sub_eq_add_neg]

/-- The NB element at count zero: the lgamma terms cancel and only the
dispersion-weighted log ratio remains. -/
theorem nbElem_zero (t m : ℝ) : nbElem t 0 m = t * Real.log (1 + m / (t + eps)) := by
  unfold nbElem lgamma
  rw [show (0:ℝ) + 1 = 1 by ring, show (0:ℝ) + t + eps = t + eps by ring,
    Real.Gamma_one, Real.log_one]
  ring

/-- The NB element at count one, simplified through the Gamma recurrence. -/
theorem nbElem_one {t : ℝ} (ht : 0 < t) (m : ℝ) :
    nbElem t 1 m = (t + 1) * Real.log (1 + m / (t + eps)) - Real.log (m + eps) := by
  have h0 : 0 < t + eps := by have := eps_pos; linarith
  unfold nbElem lgamma
  rw [show (1:ℝ) + t + eps = (t + eps) + 1 by ring, Real.Gamma_add_one h0.ne',
    show (1:ℝ) + 1 = 2 by norm_num, Real.Gamma_two, Real.log_one,
    Real.log_mul h0.ne' (Real.Gamma_pos_of_pos h0).ne']
  ring

/-- The NB element at y=1, mu=2 takes genuinely different values at the
per-call default dispersion 1e6 and at the dispersion 5: the default side
is below 2.01 while the theta=5 side exceeds it (via a five-term logarithm
series lower bound). -/
theorem nbElem_default_ne_five : nbElem thetaCap 1 2 ≠ nbElem 5 1 2 := by
  have hcap : (0:ℝ) < thetaCap := thetaCap_pos
  rw [nbElem_one hcap 2, nbElem_one (by norm_num : (0:ℝ) < 5) 2]
  have hub : (thetaCap + 1) * Real.log (1 + 2 / (thetaCap + eps)) < 2.01 := by
    have hpos : (0:ℝ) < 1 + 2 / (thetaCap + eps) := by
      have h1 := eps_pos
      have h2 := thetaCap_pos
      positivity
    have hlog : Real.log (1 + 2 / (thetaCap + eps)) ≤ 2 / (thetaCap + eps) := by
      have := Real.log_le_sub_one_of_pos hpos
      linarith
    have hmul : (thetaCap + 1) * Real.log (1 + 2 / (thetaCap + eps))
        ≤ (thetaCap + 1) * (2 / (thetaCap + eps)) :=
      mul_le_mul_of_nonneg_left hlog (by norm_num [thetaCap])
    have hnum : (thetaCap + 1) * (2 / (thetaCap + eps)) < 2.01 := by
      norm_num [thetaCap, eps]
    linarith
  have hlb : (2.01 : ℝ) < (5 + 1) * Real.log (1 + 2 / (5 + eps)) := by
    have hxpos : (0:ℝ) < 1999999 / 7000000 := by norm_num
    have hx : |(1999999 : ℝ) / 7000000| < 1 := by
      rw [abs_of_pos hxpos]; norm_num
    have hseries := Real.abs_log_sub_add_sum_range_le hx 5
    rw [abs_of_pos hxpos] at hseries
    have hup := (abs_le.1 hseries).2
    have hmono : Real.log ((7000000 : ℝ) / 5000001) ≤ Real.log (1 + 2 / (5 + eps)) := by
      apply Real.log_le_log (by norm_num)
      rw [div_le_iff₀ (by norm_num : (0:ℝ) < 5000001)]
      norm_num [eps]
    have hQ : Real.log ((7000000 : ℝ) / 5000001)
        = -Real.log (1 - (1999999 : ℝ) / 7000000) := by
      rw [show (1:ℝ) - (1999999 : ℝ) / 7000000 = 5000001 / 7000000 by norm_num,
        show (7000000 : ℝ) / 5000001 = ((5000001 : ℝ) / 7000000)⁻¹ by norm_num,
        Real.log_inv]
    have hS : (2.01 : ℝ) / 6 + ((1999999 : ℝ) / 7000000) ^ (5 + 1) / (1 - 1999999 / 7000000)
        < ∑ i ∈ Finset.range 5, ((1999999 : ℝ) / 7000000) ^ (i + 1) / (i + 1) := by
      simp only [Finset.sum_range_succ, Finset.sum_range_zero]
      norm_num
    have hlog2 : (2.01 : ℝ) / 6 < Real.log (1 + 2 / (5 + eps)) := by
      have hneg : -Real.log (1 - (1999999 : ℝ) / 7000000)
          ≥ (∑ i ∈ Finset.range 5, ((1999999 : ℝ) / 7000000) ^ (i + 1) / (i + 1))
            - ((1999999 : ℝ) / 7000000) ^ (5 + 1) / (1 - 1999999 / 7000000) := by
        linarith
      rw [hQ] at hmono
      linarith
    linarith
  intro hcontra
  linarith

/-- Lower logarithm bound: log(1+t) is at least t/(1+t) for positive t. -/
theorem log_one_add_ge {t : ℝ} (h : 0 < t) : t / (1 + t) ≤ Real.log (1 + t) := by
  have h1 : (0:ℝ) < 1 + t := by linarith
  have h2 := Real.log_le_sub_one_of_pos (show (0:ℝ) < (1 + t)⁻¹ by positivity)
  rw [Real.log_inv] at h2
  have h3 : (1 + t)⁻¹ - 1 = -(t / (1 + t)) := by field_simp
  rw [h3] at h2
  linarith

/-- The ZINB element on a nonzero finite count with a finite NB branch and an
in-range dropout probability selects the NB branch. -/
theorem zinbElem_fin_nb (s lr y mu t pi b : ℝ) (hy : ¬ (y < zeroThreshold))
    (hp : 0 < 1 - pi + eps) :
    zinbElem s lr (Val.fin y) mu t pi (Val.fin b)
      = Val.fin (b - Real.log (1 - pi + eps) + lr * pi ^ 2) := by
  simp only [zinbElem, mlogR_pos hp, hy, if_false, Val.sub_fin_fin, Val.add]

/-- The ZINB element on a numerically zero finite count with a positive
zero-branch argument selects the zero branch. -/
theorem zinbElem_fin_zero (s lr y mu t pi : ℝ) (nbv : Val) (hy : y < zeroThreshold)
    (hp : 0 < pi + (1 - pi) * ((min t thetaCap / (min t thetaCap + mu * s + eps)) ^ (min t thetaCap)) + eps) :
    zinbElem s lr (Val.fin y) mu t pi nbv
      = Val.fin (-Real.log (pi + (1 - pi) * ((min t thetaCap / (min t thetaCap + mu * s + eps)) ^ (min t thetaCap)) + eps)
          + lr * pi ^ 2) := by
  simp only [zinbElem, mlogR_pos hp, hy, if_true, Val.neg, Val.add]

/-- The ZINB element on finite inputs with in-range parameters (positive
dispersion, dropout probability in the unit interval, nonnegative mean and
scale) is the finite embedding of its real-valued mirror. -/
theorem zinbElem_fin (s lr y mu t pi b : ℝ) (ht : 0 < t) (hp0 : 0 ≤ pi) (hp1 : pi ≤ 1)
    (hmu : 0 ≤ mu) (hs : 0 ≤ s) :
    zinbElem s lr (Val.fin y) mu t pi (Val.fin b) = Val.fin (zinbElemR s lr y mu t pi b) := by
  have heps := eps_pos
  have ht2 : 0 < min t thetaCap := lt_min ht thetaCap_pos
  have hbase : 0 ≤ min t thetaCap / (min t thetaCap + mu * s + eps) :=
    div_nonneg ht2.le (by nlinarith [mul_nonneg hmu hs])
  have hW : 0 ≤ (min t thetaCap / (min t thetaCap + mu * s + eps)) ^ (min t thetaCap) :=
    Real.rpow_nonneg hbase _
  have hppos : 0 < 1 - pi + eps := by linarith
  by_cases hy : y < zeroThreshold
  · have hmz : 0 ≤ (1 - pi) * ((min t thetaCap / (min t thetaCap + mu * s + eps)) ^ (min t thetaCap)) :=
      mul_nonneg (by linarith) hW
    have harg : 0 < pi + (1 - pi) *
        ((min t thetaCap / (min t thetaCap + mu * s + eps)) ^ (min t thetaCap)) + eps := by
      linarith
    rw [zinbElem_fin_zero _ _ _ _ _ _ _ hy harg]
    unfold zinbElemR
    rw [if_pos hy]
  · rw [zinbElem_fin_nb _ _ _ _ _ _ _ hy hppos]
    unfold zinbElemR
    rw [if_neg hy]

/-- The zipped-and-mapped core of ZINB.lossElems on finite tensors is the
finite embedding of the corresponding real computation; no length
hypotheses are needed because zipping truncates both sides alike. -/
theorem zinb_zip_map_fin (s lr : ℝ) (hs : 0 ≤ s) :
    ∀ (yr tl pl mul B : List ℝ),
    (∀ t ∈ tl, 0 < t) → (∀ p ∈ pl, 0 ≤ p ∧ p ≤ 1) → (∀ m ∈ mul, 0 ≤ m) →
    ((yr.map Val.fin).zip (mul.zip ((tl.zip pl).zip (B.map Val.fin)))).map
        (fun q => zinbElem s lr q.1 q.2.1 q.2.2.1.1 q.2.2.1.2 q.2.2.2)
      = ((yr.zip (mul.zip ((tl.zip pl).zip B))).map
          (fun q => zinbElemR s lr q.1 q.2.1 q.2.2.1.1 q.2.2.1.2 q.2.2.2)).map Val.fin := by
  intro yr
  induction yr with
  | nil => intro tl pl mul B _ _ _; rfl
  | cons y yr ih =>
    intro tl pl mul B htl hpl hmul
    cases mul with
    | nil => rfl
    | cons m mul =>
      cases tl with
      | nil => rfl
      | cons t tl =>
        cases pl with
        | nil => rfl
        | cons p pl =>
          cases B with
          | nil => rfl
          | cons b B =>
            simp only [List.map_cons, List.zip_cons_cons]
            rw [zinbElem_fin s lr y m t p b (htl t (List.mem_cons_self _ _))
              (hpl p (List.mem_cons_self _ _)).1 (hpl p (List.mem_cons_self _ _)).2
              (hmul m (List.mem_cons_self _ _)) hs]
            rw [ih tl pl mul B (fun a ha => htl a (List.mem_cons_of_mem _ ha))
              (fun a ha => hpl a (List.mem_cons_of_mem _ ha))
              (fun a ha => hmul a (List.mem_cons_of_mem _ ha))]

/-- ZINB.lossElems on an all-finite count tensor with in-range parameters is
the finite embedding of realZinbElems, for either masking mode. -/
theorem zinbElems_map_fin (tl pl yr mul : List ℝ) (mask : Bool) (s lr : ℝ)
    (htl : ∀ t ∈ tl, 0 < t) (hpl : ∀ p ∈ pl, 0 ≤ p ∧ p ≤ 1)
    (hmul : ∀ m ∈ mul, 0 ≤ m) (hs : 0 ≤ s) :
    ZINB.lossElems ⟨tl, mask, s⟩ pl lr (yr.map Val.fin) mul
      = (realZinbElems tl pl s lr yr mul).map Val.fin := by
  simp only [ZINB.lossElems, NB.lossElems_map_fin, List.length_map, realZinbElems]
  exact zinb_zip_map_fin s lr hs yr tl pl mul _ htl hpl hmul

/-- With zero dropout, zero ridge and no numerically zero counts, the real
ZINB elements are exactly the NB elements at the default dispersion shifted
by -log(1+eps). -/
theorem realZinb_pi0 (tl yr mul : List ℝ) (s : ℝ)
    (h1 : tl.length = yr.length) (hge : ∀ y ∈ yr, zeroThreshold ≤ y) :
    realZinbElems tl (List.replicate yr.length 0) s 0 yr mul
      = (realNBElems s (List.replicate yr.length thetaCap) yr mul).map
          (fun b => b - Real.log (1 + eps)) := by
  induction yr generalizing tl mul with
  | nil =>
    have : tl = [] := List.length_eq_zero.1 (by simpa using h1)
    subst this
    rfl
  | cons y yr ih =>
    cases tl with
    | nil => simp at h1
    | cons t tl =>
      cases mul with
      | nil => rfl
      | cons m mul =>
        have hy : ¬ (y < zeroThreshold) := not_lt.2 (hge y (List.mem_cons_self _ _))
        simp only [realZinbElems, realNBElems, List.length_cons, List.replicate,
          List.zip_cons_cons, List.zipWith_cons_cons, List.map_cons]
        rw [List.cons_eq_cons]
        constructor
        · unfold zinbElemR
          rw [if_neg hy]
          norm_num
        · have := ih tl mul (by simpa using h1)
            (fun a ha => hge a (List.mem_cons_of_mem _ ha))
          simp only [realZinbElems, realNBElems, List.replicate] at this
          exact this

/-- Subtracting a constant from every element shifts the sum by the length
times the constant. -/
theorem sum_map_sub_const (B : List ℝ) (L : ℝ) :
    (B.map (fun b => b - L)).sum = B.sum - B.length * L := by
  induction B with
  | nil => simp
  | cons b B ih =>
    simp only [List.map_cons, List.sum_cons, List.length_cons, ih]
    push_cast
    ring

/-- The real NB element list has the count tensor's length when the
dispersion and mean tensors match it. -/
theorem realNBElems_length (s : ℝ) (yr mul : List ℝ) (h2 : mul.length = yr.length) :
    (realNBElems s (List.replicate yr.length thetaCap) yr mul).length = yr.length := by
  simp [realNBElems, List.length_zip, h2]

/-- C2 amended: with zero dropout everywhere, zero ridge, masking off and no
numerically zero counts (and in-range positive dispersion, nonnegative mean
and scale), the ZINB loss is NOT equal to the NB loss; it equals the NB loss
(at the per-call default dispersion) shifted by exactly -log(1+eps). -/
theorem C2_amended_theorem (tl yr mul : List ℝ) (s : ℝ)
    (h1 : tl.length = yr.length) (h2 : mul.length = yr.length) (hy : yr ≠ [])
    (htl : ∀ t ∈ tl, 0 < t) (hmul : ∀ m ∈ mul, 0 ≤ m) (hs : 0 ≤ s)
    (hge : ∀ y ∈ yr, zeroThreshold ≤ y) :
    ZINB.loss ⟨tl, false, s⟩ (List.replicate yr.length 0) 0 (yr.map Val.fin) mul
      = Val.add (NB.lossDefault ⟨tl, false, s⟩ (yr.map Val.fin) mul)
          (Val.fin (-Real.log (1 + eps))) := by
  have hn : 0 < yr.length := List.length_pos.2 hy
  have hcast : (0:ℝ) < (yr.length : ℝ) := by exact_mod_cast hn
  have hpl : ∀ p ∈ List.replicate yr.length (0:ℝ), 0 ≤ p ∧ p ≤ 1 := by
    intro p hp
    rw [List.eq_of_mem_replicate hp]
    norm_num
  have helems := zinbElems_map_fin tl (List.replicate yr.length 0) yr mul false s 0
    htl hpl hmul hs
  rw [realZinb_pi0 tl yr mul s h1 hge] at helems
  have hBlen := realNBElems_length s yr mul h2
  simp only [ZINB.loss]
  rw [helems]
  simp only [Bool.false_eq_true, if_false, NB.lossDefault, NB.loss]
  rw [NB.lossElems_map_fin]
  simp only [List.length_map, hBlen]
  rw [sumV_map_fin, sumV_map_fin, sum_map_sub_const, hBlen, divV_fin _ hcast,
    divV_fin _ hcast]
  simp only [nan2inf, Val.add, Val.fin.injEq]
  field_simp
  ring

/-- C2 witness: the amended shift identity at a concrete input. -/
theorem C2_witness :
    ZINB.loss ⟨[1], false, 1⟩ [0] 0 ([(1:ℝ)].map Val.fin) [1]
      = Val.add (NB.lossDefault ⟨[1], false, 1⟩ ([(1:ℝ)].map Val.fin) [1])
          (Val.fin (-Real.log (1 + eps))) :=
  C2_amended_theorem [1] [1] [1] 1 rfl rfl (by simp) (by norm_num) (by norm_num)
    (by norm_num) (by norm_num [zeroThreshold])

/-- The masked mean of an all-finite nonempty tensor is the ordinary mean. -/
theorem reduceMeanV_map_fin (R : List ℝ) (h : R ≠ []) :
    reduceMeanV (R.map Val.fin) = Val.fin (R.sum / R.length) := by
  have hcast : (0:ℝ) < (R.length : ℝ) := by
    exact_mod_cast List.length_pos.2 h
  unfold reduceMeanV
  rw [map_nan2zero_fin, sumV_map_fin, nelemV_map_fin R h, divV_fin _ hcast]

/-- The real ZINB element list has the count tensor's length when all
parameter tensors match it. -/
theorem realZinbElems_len (tl pl yr mul : List ℝ) (s lr : ℝ)
    (h1 : tl.length = yr.length) (h2 : mul.length = yr.length)
    (h3 : pl.length = yr.length) :
    (realZinbElems tl pl s lr yr mul).length = yr.length := by
  simp [realZinbElems, realNBElems, List.length_zip, h1, h2, h3]

/-- The reduced ZINB loss on an all-finite count tensor with in-range
parameters is finite and equals the mean of the real element list, under
either masking mode (with everything finite the masked reducer divides by
the full length as well). -/
theorem zinbLoss_fin (tl pl yr mul : List ℝ) (mask : Bool) (s lr : ℝ)
    (h1 : tl.length = yr.length) (h2 : mul.length = yr.length)
    (h3 : pl.length = yr.length) (hy : yr ≠ [])
    (htl : ∀ t ∈ tl, 0 < t) (hpl : ∀ p ∈ pl, 0 ≤ p ∧ p ≤ 1)
    (hmul : ∀ m ∈ mul, 0 ≤ m) (hs : 0 ≤ s) :
    ZINB.loss ⟨tl, mask, s⟩ pl lr (yr.map Val.fin) mul
      = Val.fin ((realZinbElems tl pl s lr yr mul).sum / yr.length) := by
  have hcast : (0:ℝ) < (yr.length : ℝ) := by
    exact_mod_cast List.length_pos.2 hy
  have helems := zinbElems_map_fin tl pl yr mul mask s lr htl hpl hmul hs
  have hlen := realZinbElems_len tl pl yr mul s lr h1 h2 h3
  have hRne : realZinbElems tl pl s lr yr mul ≠ [] := by
    intro hc
    rw [hc] at hlen
    exact hy (List.length_eq_zero.1 (by simpa using hlen.symm))
  simp only [ZINB.loss]
  rw [helems]
  cases mask with
  | true =>
    simp only [if_true]
    rw [reduceMeanV_map_fin _ hRne, hlen]
    rfl
  | false =>
    simp only [Bool.false_eq_true, if_false]
    rw [sumV_map_fin, List.length_map, hlen, divV_fin _ hcast]
    rfl

/-- The ridge term separates from the real ZINB element sum. -/
theorem realZinb_ridge (tl pl yr mul : List ℝ) (s lr : ℝ)
    (h1 : tl.length = yr.length) (h3 : pl.length = yr.length)
    (h2 : mul.length = yr.length) :
    (realZinbElems tl pl s lr yr mul).sum
      = (realZinbElems tl pl s 0 yr mul).sum + lr * (pl.map (fun p => p ^ 2)).sum := by
  induction yr generalizing tl pl mul with
  | nil =>
    have ht : tl = [] := List.length_eq_zero.1 (by simpa using h1)
    have hp : pl = [] := List.length_eq_zero.1 (by simpa using h3)
    subst ht; subst hp
    simp [realZinbElems]
  | cons y yr ih =>
    cases tl with
    | nil => simp at h1
    | cons t tl =>
      cases pl with
      | nil => simp at h3
      | cons p pl =>
        cases mul with
        | nil => simp at h2
        | cons m mul =>
          have htail := ih tl pl mul (by simpa using h1) (by simpa using h3)
            (by simpa using h2)
          simp only [realZinbElems, realNBElems, List.length_cons, List.replicate,
            List.zip_cons_cons, List.zipWith_cons_cons, List.map_cons, List.sum_cons]
          simp only [realZinbElems, realNBElems, List.replicate] at htail
          rw [htail]
          have hhead : zinbElemR s lr y m t p (nbElem (min thetaCap thetaCap) y (m * s))
              = zinbElemR s 0 y m t p (nbElem (min thetaCap thetaCap) y (m * s))
                + lr * p ^ 2 := by
            unfold zinbElemR
            split <;> ring
          rw [hhead]
          ring

/-- Strict order between finite values is the real order. -/
theorem Val.lt_fin (a b : ℝ) : Val.lt (Val.fin a) (Val.fin b) ↔ a < b := Iff.rfl

/-- C6: with elementwise dropout probability in (0,1] (and in-range positive
dispersion, nonnegative mean and scale, any masking mode), the ZINB loss at
ridge weight lr equals the loss at ridge weight 0 plus lr times the mean of
pi squared, and the loss is strictly increasing in the ridge weight. -/
theorem C6_ridge (tl pl yr mul : List ℝ) (mask : Bool) (s lr lr1 lr2 : ℝ)
    (h1 : tl.length = yr.length) (h2 : mul.length = yr.length)
    (h3 : pl.length = yr.length) (hy : yr ≠ [])
    (htl : ∀ t ∈ tl, 0 < t) (hpl : ∀ p ∈ pl, 0 < p ∧ p ≤ 1)
    (hmul : ∀ m ∈ mul, 0 ≤ m) (hs : 0 ≤ s) (hlt : lr1 < lr2) :
    ZINB.loss ⟨tl, mask, s⟩ pl lr (yr.map Val.fin) mul
      = Val.add (ZINB.loss ⟨tl, mask, s⟩ pl 0 (yr.map Val.fin) mul)
          (Val.fin (lr * ((pl.map (fun p => p ^ 2)).sum / yr.length)))
    ∧ Val.lt (ZINB.loss ⟨tl, mask, s⟩ pl lr1 (yr.map Val.fin) mul)
        (ZINB.loss ⟨tl, mask, s⟩ pl lr2 (yr.map Val.fin) mul) := by
  have hcast : (0:ℝ) < (yr.length : ℝ) := by
    exact_mod_cast List.length_pos.2 hy
  have hpl' : ∀ p ∈ pl, 0 ≤ p ∧ p ≤ 1 := fun p hp => ⟨(hpl p hp).1.le, (hpl p hp).2⟩
  have hloss : ∀ lrx : ℝ, ZINB.loss ⟨tl, mask, s⟩ pl lrx (yr.map Val.fin) mul
      = Val.fin ((realZinbElems tl pl s lrx yr mul).sum / yr.length) :=
    fun lrx => zinbLoss_fin tl pl yr mul mask s lrx h1 h2 h3 hy htl hpl' hmul hs
  have hsum : ∀ lrx : ℝ, (realZinbElems tl pl s lrx yr mul).sum
      = (realZinbElems tl pl s 0 yr mul).sum + lrx * (pl.map (fun p => p ^ 2)).sum :=
    fun lrx => realZinb_ridge tl pl yr mul s lrx h1 h3 h2
  have hsq : 0 < (pl.map (fun p => p ^ 2)).sum := by
    apply List.sum_pos
    · intro x hx
      rcases List.mem_map.1 hx with ⟨p, hp, rfl⟩
      exact pow_pos (hpl p hp).1 2
    · intro hc
      have : pl = [] := by simpa using hc
      rw [this] at h3
      exact hy (List.length_eq_zero.1 (by simpa using h3.symm))
  constructor
  · rw [hloss lr, hloss 0, hsum lr]
    simp only [Val.add, Val.fin.injEq]
    rw [add_div, mul_div_assoc]
  · rw [hloss lr1, hloss lr2, Val.lt_fin, hsum lr1, hsum lr2]
    have hmul2 : lr1 * (pl.map (fun p => p ^ 2)).sum < lr2 * (pl.map (fun p => p ^ 2)).sum :=
      mul_lt_mul_of_pos_right hlt hsq
    rw [div_lt_div_iff_of_pos_right hcast]
    linarith

/-- C6 witness: the ridge decomposition and strict increase at a concrete
input. -/
theorem C6_witness :
    (ZINB.loss ⟨[1], false, 1⟩ [1] 1 ([(1:ℝ)].map Val.fin) [1]
      = Val.add (ZINB.loss ⟨[1], false, 1⟩ [1] 0 ([(1:ℝ)].map Val.fin) [1])
          (Val.fin (1 * (([(1:ℝ)].map (fun p => p ^ 2)).sum / [(1:ℝ)].length))))
    ∧ Val.lt (ZINB.loss ⟨[1], false, 1⟩ [1] 0 ([(1:ℝ)].map Val.fin) [1])
        (ZINB.loss ⟨[1], false, 1⟩ [1] 1 ([(1:ℝ)].map Val.fin) [1]) :=
  C6_ridge [1] [1] [1] [1] false 1 1 0 1 rfl rfl rfl (by simp) (by norm_num)
    (by norm_num) (by norm_num) (by norm_num) (by norm_num)

/-- C2 counterexample: on the literal input y=[0,1,2], mu=[2,2,2],
theta=[5,5,5], pi=[0,0,0] (ridge 0, scale 1, no masking), the ZINB loss and
the NB loss of identically configured objects differ: every ZINB NB-branch
element is shifted by -log(1+eps), and the ZINB zero branch runs at the
stored theta=5 while the NB loss runs at the per-call default dispersion. -/
theorem C2_counterexample :
    ZINB.loss ⟨[5, 5, 5], false, 1⟩ [0, 0, 0] 0 [Val.fin 0, Val.fin 1, Val.fin 2] [2, 2, 2]
      ≠ NB.lossDefault ⟨[5, 5, 5], false, 1⟩ [Val.fin 0, Val.fin 1, Val.fin 2] [2, 2, 2] := by
  have heps := eps_pos
  have hmin : min (5:ℝ) thetaCap = 5 := min_eq_left (by norm_num [thetaCap])
  have hnbv : NB.lossElems ⟨[5, 5, 5], false, 1⟩
      (List.replicate (List.length [Val.fin 0, Val.fin 1, Val.fin 2]) thetaCap)
      [Val.fin 0, Val.fin 1, Val.fin 2] [2, 2, 2]
      = [Val.fin (nbElem thetaCap 0 2), Val.fin (nbElem thetaCap 1 2),
         Val.fin (nbElem thetaCap 2 2)] := by
    rw [show [Val.fin 0, Val.fin 1, Val.fin 2] = ([0, 1, 2] : List ℝ).map Val.fin from rfl,
      NB.lossElems_map_fin]
    norm_num [realNBElems, List.replicate, min_self]
  have hz : (0:ℝ) < zeroThreshold := by norm_num [zeroThreshold]
  have h1no : ¬ ((1:ℝ) < zeroThreshold) := by norm_num [zeroThreshold]
  have h2no : ¬ ((2:ℝ) < zeroThreshold) := by norm_num [zeroThreshold]
  have hppos : (0:ℝ) < 1 - 0 + eps := by norm_num [eps]
  have hwpos : (0:ℝ) < (min 5 thetaCap / (min 5 thetaCap + 2 * 1 + eps)) ^ (min 5 thetaCap) := by
    rw [hmin]
    have h7 : (0:ℝ) < 5 + 2 * 1 + eps := by norm_num [eps]
    exact Real.rpow_pos_of_pos (by positivity) _
  have hargpos : (0:ℝ) < 0 + (1 - 0) *
      ((min 5 thetaCap / (min 5 thetaCap + 2 * 1 + eps)) ^ (min 5 thetaCap)) + eps := by
    nlinarith [hwpos, heps]
  have e0 := zinbElem_fin_zero 1 0 0 2 5 0 (Val.fin (nbElem thetaCap 0 2)) hz hargpos
  have e1 := zinbElem_fin_nb 1 0 1 2 5 0 (nbElem thetaCap 1 2) h1no hppos
  have e2 := zinbElem_fin_nb 1 0 2 2 5 0 (nbElem thetaCap 2 2) h2no hppos
  have hlhs : ZINB.loss ⟨[5, 5, 5], false, 1⟩ [0, 0, 0] 0
      [Val.fin 0, Val.fin 1, Val.fin 2] [2, 2, 2]
      = Val.fin ((-Real.log ((5 / (5 + 2 + eps)) ^ (5:ℝ) + eps)
          + (nbElem thetaCap 1 2 - Real.log (1 + eps))
          + (nbElem thetaCap 2 2 - Real.log (1 + eps))) / 3) := by
    simp only [ZINB.loss, ZINB.lossElems]
    rw [hnbv]
    simp only [List.zip_cons_cons, List.zip_nil_right, List.zip_nil_left,
      List.map_cons, List.map_nil]
    rw [e0, e1, e2]
    simp only [Bool.false_eq_true, if_false]
    rw [hmin]
    norm_num [sumV, Val.add, divV, nan2inf]
    ring_nf
  have hrhs : NB.lossDefault ⟨[5, 5, 5], false, 1⟩
      [Val.fin 0, Val.fin 1, Val.fin 2] [2, 2, 2]
      = Val.fin ((nbElem thetaCap 0 2 + nbElem thetaCap 1 2 + nbElem thetaCap 2 2) / 3) := by
    unfold NB.lossDefault NB.loss
    rw [hnbv]
    norm_num [sumV, Val.add, divV]
    ring_nf
  rw [hlhs, hrhs]
  intro hcontra
  rw [Val.fin.injEq] at hcontra
  have hL : 0 ≤ Real.log (1 + eps) := Real.log_nonneg (by linarith)
  have hwpos2 : (0:ℝ) < (5 / (5 + 2 + eps)) ^ (5:ℝ) := by
    have h7 : (0:ℝ) < 5 + 2 + eps := by norm_num [eps]
    exact Real.rpow_pos_of_pos (by positivity) _
  have hz1 : Real.log ((5 / (5 + 2 + eps)) ^ (5:ℝ))
      ≤ Real.log ((5 / (5 + 2 + eps)) ^ (5:ℝ) + eps) :=
    Real.log_le_log hwpos2 (by linarith)
  have hz2 : Real.log ((5 / (5 + 2 + eps)) ^ (5:ℝ)) = 5 * Real.log (5 / (5 + 2 + eps)) :=
    Real.log_rpow (by norm_num [eps]) 5
  have hz3 : Real.log (5 / (5 + 2 + eps)) = Real.log 5 - Real.log (5 + 2 + eps) :=
    Real.log_div (by norm_num) (by norm_num [eps])
  have ha : Real.log (5 + 2 + eps) = Real.log ((5 + 2 + eps) / 6) + Real.log 6 := by
    rw [← Real.log_mul (by norm_num [eps]) (by norm_num)]
    norm_num
  have hb : Real.log 6 = Real.log (6 / 5) + Real.log 5 := by
    rw [← Real.log_mul (by norm_num) (by norm_num)]
    norm_num
  have hc : Real.log ((5 + 2 + eps) / 6) ≤ (5 + 2 + eps) / 6 - 1 :=
    Real.log_le_sub_one_of_pos (by norm_num [eps])
  have hd : Real.log (6 / 5) ≤ 6 / 5 - 1 := Real.log_le_sub_one_of_pos (by norm_num)
  have hnum2 : (5:ℝ) * ((5 + 2 + eps) / 6 - 1 + (6 / 5 - 1)) < 199 / 100 := by
    norm_num [eps]
  have hm0 : (199 / 100 : ℝ) ≤ nbElem thetaCap 0 2 := by
    rw [nbElem_zero]
    have ht : (0:ℝ) < 2 / (thetaCap + eps) := by norm_num [thetaCap, eps]
    have hlog := log_one_add_ge ht
    have hmul : thetaCap * ((2 / (thetaCap + eps)) / (1 + 2 / (thetaCap + eps)))
        ≤ thetaCap * Real.log (1 + 2 / (thetaCap + eps)) :=
      mul_le_mul_of_nonneg_left hlog (by norm_num [thetaCap])
    have hnum3 : (199 / 100 : ℝ) ≤ thetaCap * ((2 / (thetaCap + eps)) / (1 + 2 / (thetaCap + eps))) := by
      norm_num [thetaCap, eps]
    linarith
  linarith

/-- C1 (code bug): for a ZINB object holding theta=5 (scale 1, no masking,
ridge 0), at y=1, mu=2, pi=0 the per-element loss is the NB branch evaluated
at the per-call default dispersion 1e6 (the inner NB call never reads the
stored theta), and the default dispersion gives a genuinely different NB
value than the stored theta=5 that the claim prescribes. -/
theorem C1_theta_divergence :
    ZINB.lossElems ⟨[5], false, 1⟩ [0] 0 [Val.fin 1] [2]
      = [Val.fin (nbElem thetaCap 1 2 - Real.log (1 + eps))]
    ∧ nbElem thetaCap 1 2 ≠ nbElem 5 1 2 := by
  constructor
  · have hpos : (0:ℝ) < 1 + eps := by norm_num [eps]
    have hno : ¬ ((1:ℝ) < zeroThreshold) := by norm_num [zeroThreshold]
    simp [ZINB.lossElems, NB.lossElems, zinbElem, nbElemV, nan2inf, mlogR,
      Val.sub, Val.neg, Val.add, min_self, hpos, hno, sub_eq_add_neg]
  · exact nbElem_default_ne_five

/-- C4: both two-component NB mixture losses return the masked mean of
logsumexp(branch1 - gate, branch2) + softplus(gate) followed by the NaN to
infinity mapping, where the branches are the unreduced per-element NB
likelihoods at theta1 and theta2; the gate is the stored pi tensor for
CombNBLoss (means y_pred and y_pred*alpha) and the prediction itself for
CombNBLossSimple (means the stored tensors). -/
theorem C4_mixture_structure (cfg : NBCfg) (pl al t1l t2l m1 m2 : List ℝ)
    (y : List Val) (ypred : List ℝ) :
    CombNBLoss.loss cfg pl al t1l t2l y ypred
      = mixReduce (NB.lossElems cfg t1l y ypred)
          (NB.lossElems cfg t2l y (List.zipWith (· * ·) ypred al)) pl
    ∧ CombNBLossSimple.loss cfg m1 m2 t1l t2l y ypred
      = mixReduce (NB.lossElems cfg t1l y m1) (NB.lossElems cfg t2l y m2) ypred :=
  ⟨rfl, rfl⟩

/-- The code's per-element NB computation (clip, scale, t1+t2) equals the
claim's single formula. -/
theorem nbElem_eq_claim (s t y mu : ℝ) :
    nbElem (min t thetaCap) y (mu * s) = nbClaimFormula s t y mu := by
  unfold nbElem nbClaimFormula
  rw [mul_comm mu s]
  ring

/-- Zeroing the NaNs of a finite-or-missing tensor gives the finite
embedding of its zeroed real counterpart. -/
theorem map_nan2zero_eq_toZeroed (y : List Val)
    (h : ∀ v ∈ y, v = Val.nan ∨ ∃ x, v = Val.fin x) :
    y.map nan2zero = (toZeroed y).map Val.fin := by
  induction y with
  | nil => rfl
  | cons v y ih =>
    have htail := ih (fun a ha => h a (List.mem_cons_of_mem _ ha))
    simp only [toZeroed, List.map_cons] at htail ⊢
    rw [List.cons_eq_cons]
    refine ⟨?_, htail⟩
    rcases h v (List.mem_cons_self _ _) with hv | ⟨x, hv⟩ <;> subst hv <;> rfl

/-- Length of the real NB element list under matching tensor lengths. -/
theorem realNBElems_len2 (s : ℝ) (tc yr mul : List ℝ)
    (h1 : tc.length = yr.length) (h2 : mul.length = yr.length) :
    (realNBElems s tc yr mul).length = yr.length := by
  simp [realNBElems, List.length_zip, h1, h2]

/-- C3: the NB loss computes per element exactly the claimed formula (with
theta clipped at 1e6 and the mean scaled by the configured factor), maps any
per-element NaN to plus infinity, and reduces by sum over countValid (after
zeroing missing counts) under masking and by the plain mean otherwise. -/
theorem C3_nb_loss (ts tc mul yr : List ℝ) (y : List Val) (s : ℝ)
    (hval : ∀ v ∈ y, v = Val.nan ∨ ∃ x, v = Val.fin x)
    (h1 : tc.length = yr.length) (h2 : mul.length = yr.length) (hyr : yr ≠ []) :
    (NB.lossElems ⟨ts, false, s⟩ tc (yr.map Val.fin) mul
       = (List.zipWith (fun yv q => nbClaimFormula s q.1 yv q.2) yr (tc.zip mul)).map Val.fin)
    ∧ (∀ t m : ℝ, nan2inf (nbElemV t m Val.nan) = Val.pinf)
    ∧ (NB.loss ⟨ts, true, s⟩ tc y mul
       = Val.fin ((List.zipWith (fun yv q => nbClaimFormula s q.1 yv q.2)
             (toZeroed y) (tc.zip mul)).sum / nelemV y))
    ∧ (NB.loss ⟨ts, false, s⟩ tc (yr.map Val.fin) mul
       = Val.fin ((List.zipWith (fun yv q => nbClaimFormula s q.1 yv q.2)
             yr (tc.zip mul)).sum / yr.length)) := by
  have hfun : (fun (yv : ℝ) (q : ℝ × ℝ) => nbElem (min q.1 thetaCap) yv (q.2 * s))
      = fun yv q => nbClaimFormula s q.1 yv q.2 := by
    funext yv q
    exact nbElem_eq_claim s q.1 yv q.2
  have hcast : (0:ℝ) < (yr.length : ℝ) := by
    exact_mod_cast List.length_pos.2 hyr
  have hlen : (List.zipWith (fun yv q => nbClaimFormula s q.1 yv q.2)
      yr (tc.zip mul)).length = yr.length := by
    simp [List.length_zip, h1, h2]
  refine ⟨?_, fun t m => rfl, ?_, ?_⟩
  · simp only [NB.lossElems_map_fin]
    unfold realNBElems
    rw [hfun]
  · have hswap : NB.lossElems ⟨ts, true, s⟩ tc y mul
        = NB.lossElems ⟨ts, true, s⟩ tc ((toZeroed y).map Val.fin) mul := by
      simp only [NB.lossElems]
      rw [map_nan2zero_eq_toZeroed y hval, map_nan2zero_fin]
      simp
    simp only [NB.loss]
    rw [hswap, NB.lossElems_map_fin]
    unfold realNBElems
    rw [hfun, sumV_map_fin, divV_fin _ (nelemV_pos y)]
    simp
  · simp only [NB.loss, NB.lossElems_map_fin]
    unfold realNBElems
    rw [hfun, sumV_map_fin, List.length_map, hlen]
    simp only [Bool.false_eq_true, if_false]
    rw [divV_fin _ hcast]

/-- All-finite tensors survive the non-NaN filter untouched. -/
theorem filter_notnan_map_fin (r : List ℝ) :
    ((r.map Val.fin).filter fun v => !v.isNaN) = r.map Val.fin :=
  List.filter_eq_self.2 (by
    intro v hv
    rcases List.mem_map.1 hv with ⟨x, _, rfl⟩
    rfl)

/-- countValid of a tensor with exactly one missing entry is the number of
remaining entries. -/
theorem nelemV_one_missing (a b : List ℝ) (hne : a ++ b ≠ []) :
    nelemV (a.map Val.fin ++ [Val.nan] ++ b.map Val.fin)
      = ((a.length + b.length : ℕ) : ℝ) := by
  have hk : a.length + b.length ≠ 0 := by
    intro hc
    rcases Nat.add_eq_zero.1 hc with ⟨ha, hb⟩
    exact hne (by rw [List.length_eq_zero.1 ha, List.length_eq_zero.1 hb]; rfl)
  unfold nelemV
  rw [List.filter_append, List.filter_append, filter_notnan_map_fin, filter_notnan_map_fin]
  rw [show (([Val.nan]).filter fun v => !v.isNaN) = [] from rfl]
  simp [List.length_append, hk]

/-- The zipped core of the NB elements on a finite count list is the finite
embedding of the real zipped computation. -/
theorem nb_zip_fin (s : ℝ) (r : List ℝ) (Z : List (ℝ × ℝ)) :
    List.zipWith (fun yv q => nan2inf (nbElemV (min q.1 thetaCap) (q.2 * s) yv))
        (r.map Val.fin) Z
      = (List.zipWith (fun yv q => nbElem (min q.1 thetaCap) yv (q.2 * s)) r Z).map Val.fin := by
  rw [List.zipWith_map_left, List.map_zipWith]
  rfl

/-- C5 counterexample: a count matrix with one missing entry paired with a
positive prediction does not give the same masked Poisson loss as the matrix
with that pair removed; the missing element still contributes its
prediction. -/
theorem C5_counterexample :
    poisson_loss [Val.nan, Val.fin 1] [1, 1] ≠ poisson_loss [Val.fin 1] [1] := by
  have h0 : poissonRet 0 1 = 1 := by
    unfold poissonRet lgamma
    rw [show (0:ℝ) + 1 = 1 by ring, Real.Gamma_one, Real.log_one]
    ring
  have hlhs : poisson_loss [Val.nan, Val.fin 1] [1, 1]
      = Val.fin ((1 + (poissonRet 1 1 + 0)) / 1) := by
    simp only [poisson_loss, List.map_cons, List.map_nil, nan2zero]
    rw [show nelemV [Val.nan, Val.fin 1] = ((1:ℕ):ℝ) by rfl]
    simp only [List.zipWith_cons_cons, List.zipWith_nil_right, List.zipWith_nil_left]
    rw [show poissonRetV 1 (Val.fin 0) = Val.fin (poissonRet 0 1) from rfl,
      show poissonRetV 1 (Val.fin 1) = Val.fin (poissonRet 1 1) from rfl, h0]
    simp only [sumV, List.foldr_cons, List.foldr_nil, Val.add]
    rw [divV_fin _ (by norm_num)]
    norm_num
  have hrhs : poisson_loss [Val.fin 1] [1] = Val.fin ((poissonRet 1 1 + 0) / 1) := by
    simp only [poisson_loss, List.map_cons, List.map_nil, nan2zero]
    rw [show nelemV [Val.fin 1] = ((1:ℕ):ℝ) by rfl]
    simp only [List.zipWith_cons_cons, List.zipWith_nil_right, List.zipWith_nil_left]
    rw [show poissonRetV 1 (Val.fin 1) = Val.fin (poissonRet 1 1) from rfl]
    simp only [sumV, List.foldr_cons, List.foldr_nil, Val.add]
    rw [divV_fin _ (by norm_num)]
    norm_num
  rw [hlhs, hrhs]
  intro hcon
  rw [Val.fin.injEq] at hcon
  norm_num at hcon

/-- C5 amended: deleting the missing pair does not reproduce the masked
reduction exactly; the masked Poisson and NB losses on a matrix with one
missing entry equal the loss on the matrix with that pair removed plus the
per-element loss of the removed prediction at count zero, divided by the
valid count. -/
theorem C5_amended_theorem (ts t1l t2l l1 l2 a b : List ℝ) (t l s : ℝ)
    (h1 : l1.length = a.length) (h2 : l2.length = b.length)
    (h3 : t1l.length = a.length) (h4 : t2l.length = b.length)
    (hne : a ++ b ≠ []) :
    (poisson_loss (a.map Val.fin ++ [Val.nan] ++ b.map Val.fin) (l1 ++ [l] ++ l2)
      = Val.add (poisson_loss ((a ++ b).map Val.fin) (l1 ++ l2))
          (Val.fin (poissonRet 0 l / ((a.length + b.length : ℕ) : ℝ))))
    ∧ (NB.loss ⟨ts, true, s⟩ (t1l ++ [t] ++ t2l)
          (a.map Val.fin ++ [Val.nan] ++ b.map Val.fin) (l1 ++ [l] ++ l2)
      = Val.add (NB.loss ⟨ts, true, s⟩ (t1l ++ t2l) ((a ++ b).map Val.fin) (l1 ++ l2))
          (Val.fin (nbElem (min t thetaCap) 0 (l * s) / ((a.length + b.length : ℕ) : ℝ)))) := by
  have hk : a.length + b.length ≠ 0 := by
    intro hc
    rcases Nat.add_eq_zero.1 hc with ⟨ha, hb⟩
    exact hne (by rw [List.length_eq_zero.1 ha, List.length_eq_zero.1 hb]; rfl)
  have hkpos : (0:ℝ) < ((a.length + b.length : ℕ) : ℝ) := by
    exact_mod_cast Nat.pos_of_ne_zero hk
  constructor
  · have hsplit : List.zipWith (fun yv l => poissonRetV l yv)
        ((a.map Val.fin ++ [Val.nan] ++ b.map Val.fin).map nan2zero) (l1 ++ [l] ++ l2)
        = ((List.zipWith (fun y l => poissonRet y l) a l1 ++ [poissonRet 0 l])
            ++ List.zipWith (fun y l => poissonRet y l) b l2).map Val.fin := by
      rw [List.map_append, List.map_append, map_nan2zero_fin, map_nan2zero_fin,
        show ([Val.nan].map nan2zero) = [Val.fin 0] from rfl]
      rw [List.zipWith_append _ _ _ _ _ (by simp [h1]),
        List.zipWith_append _ _ _ _ _ (by simp [h1])]
      rw [poisson_elems_map_fin, poisson_elems_map_fin]
      rw [List.map_append, List.map_append]
      rfl
    have hsplit2 : List.zipWith (fun yv l => poissonRetV l yv)
        (((a ++ b).map Val.fin).map nan2zero) (l1 ++ l2)
        = (List.zipWith (fun y l => poissonRet y l) a l1
            ++ List.zipWith (fun y l => poissonRet y l) b l2).map Val.fin := by
      rw [map_nan2zero_fin, List.map_append]
      rw [List.zipWith_append _ _ _ _ _ (by simp [h1])]
      rw [poisson_elems_map_fin, poisson_elems_map_fin, List.map_append]
    simp only [poisson_loss]
    rw [hsplit, hsplit2, sumV_map_fin, sumV_map_fin, nelemV_one_missing a b hne,
      nelemV_map_fin _ hne, List.length_append, divV_fin _ hkpos]
    rw [show (((a.length + b.length : ℕ) : ℝ)) = ((a.length + b.length : ℕ) : ℝ) from rfl]
    rw [divV_fin _ hkpos]
    simp only [Val.add, Val.fin.injEq, List.sum_append, List.sum_cons, List.sum_nil]
    field_simp
    ring
  · have hzt : (t1l ++ [t] ++ t2l).zip (l1 ++ [l] ++ l2)
        = (t1l.zip l1 ++ [(t, l)]) ++ t2l.zip l2 := by
      rw [List.zip_append (by simp [h1, h3]), List.zip_append (by simp [h1, h3])]
      rfl
    have hzt2 : (t1l ++ t2l).zip (l1 ++ l2) = t1l.zip l1 ++ t2l.zip l2 :=
      List.zip_append (by simp [h1, h3])
    have hlen1 : (t1l.zip l1).length = a.length := by
      simp [List.length_zip, h1, h3]
    have hsplit : NB.lossElems ⟨ts, true, s⟩ (t1l ++ [t] ++ t2l)
        (a.map Val.fin ++ [Val.nan] ++ b.map Val.fin) (l1 ++ [l] ++ l2)
        = ((List.zipWith (fun yv q => nbElem (min q.1 thetaCap) yv (q.2 * s)) a (t1l.zip l1)
            ++ [nbElem (min t thetaCap) 0 (l * s)])
            ++ List.zipWith (fun yv q => nbElem (min q.1 thetaCap) yv (q.2 * s)) b (t2l.zip l2)).map
              Val.fin := by
      simp only [NB.lossElems, if_true]
      rw [List.map_append, List.map_append, map_nan2zero_fin, map_nan2zero_fin,
        show ([Val.nan].map nan2zero) = [Val.fin 0] from rfl, hzt]
      rw [List.zipWith_append _ _ _ _ _ (by simp [hlen1]),
        List.zipWith_append _ _ _ _ _ (by simp [hlen1])]
      rw [nb_zip_fin, nb_zip_fin]
      rw [List.map_append, List.map_append]
      rfl
    have hsplit2 : NB.lossElems ⟨ts, true, s⟩ (t1l ++ t2l) ((a ++ b).map Val.fin) (l1 ++ l2)
        = (List.zipWith (fun yv q => nbElem (min q.1 thetaCap) yv (q.2 * s)) a (t1l.zip l1)
            ++ List.zipWith (fun yv q => nbElem (min q.1 thetaCap) yv (q.2 * s)) b (t2l.zip l2)).map
              Val.fin := by
      simp only [NB.lossElems, if_true]
      rw [map_nan2zero_fin, List.map_append, hzt2]
      rw [List.zipWith_append _ _ _ _ _ (by simp [hlen1])]
      rw [nb_zip_fin, nb_zip_fin, List.map_append]
    simp only [NB.loss]
    rw [hsplit, hsplit2, sumV_map_fin, sumV_map_fin, nelemV_one_missing a b hne,
      nelemV_map_fin _ hne, List.length_append, divV_fin _ hkpos, divV_fin _ hkpos]
    simp only [Val.add, Val.fin.injEq, List.sum_append, List.sum_cons, List.sum_nil]
    field_simp
    ring

/-- C5 witness: the masked-reduction decomposition at a concrete input. -/
theorem C5_witness :
    (poisson_loss ([(1:ℝ)].map Val.fin ++ [Val.nan] ++ ([] : List ℝ).map Val.fin)
        ([1] ++ [1] ++ [])
      = Val.add (poisson_loss (([(1:ℝ)] ++ []).map Val.fin) ([1] ++ []))
          (Val.fin (poissonRet 0 1 / (([(1:ℝ)].length + ([] : List ℝ).length : ℕ) : ℝ))))
    ∧ (NB.loss ⟨[], true, 1⟩ ([1] ++ [1] ++ [])
          ([(1:ℝ)].map Val.fin ++ [Val.nan] ++ ([] : List ℝ).map Val.fin) ([1] ++ [1] ++ [])
      = Val.add (NB.loss ⟨[], true, 1⟩ ([1] ++ []) (([(1:ℝ)] ++ []).map Val.fin) ([1] ++ []))
          (Val.fin (nbElem (min 1 thetaCap) 0 (1 * 1)
            / (([(1:ℝ)].length + ([] : List ℝ).length : ℕ) : ℝ)))) :=
  C5_amended_theorem [] [1] [] [1] [] [1] [] 1 1 1 rfl rfl rfl rfl (by simp)

/-- A dropout probability above one drives the ZINB NB branch through the
log of a negative number, so the element becomes NaN (for either masking
mode of the inner NB call). -/
theorem zinb_nan_example (mask : Bool) :
    ZINB.lossElems ⟨[1], mask, 1⟩ [3] 0 [Val.fin 1] [1] = [Val.nan] := by
  have hneg : (1:ℝ) - 3 + eps < 0 := by norm_num [eps]
  have h1no : ¬ ((1:ℝ) < zeroThreshold) := by norm_num [zeroThreshold]
  have helem : ∀ b : ℝ, zinbElem 1 0 (Val.fin 1) 1 1 3 (Val.fin b) = Val.nan := by
    intro b
    simp only [zinbElem, mlogR_neg hneg, h1no, if_false]
    rfl
  have hnbv : NB.lossElems ⟨[1], mask, 1⟩
      (List.replicate (List.length [Val.fin 1]) thetaCap) [Val.fin 1] [1]
      = [Val.fin (nbElem (min thetaCap thetaCap) 1 (1 * 1))] := by
    cases mask <;> rfl
  simp only [ZINB.lossElems]
  rw [hnbv]
  simp only [List.zip_cons_cons, List.zip_nil_right, List.zip_nil_left,
    List.map_cons, List.map_nil]
  rw [helem]

/-- C7 counterexample: under the masked reduction a ZINB per-element NaN
(here produced by a dropout probability of 3) is zeroed and dropped from the
count by reduce_mean, so the reduced loss is exactly zero, not plus
infinity: the claimed per-element NaN-to-infinity policy does not hold for
the masked ZINB path. -/
theorem C7_counterexample :
    ZINB.lossElems ⟨[1], true, 1⟩ [3] 0 [Val.fin 1] [1] = [Val.nan]
    ∧ ZINB.loss ⟨[1], true, 1⟩ [3] 0 [Val.fin 1] [1] = Val.fin 0
    ∧ (Val.fin 0 : Val) ≠ Val.pinf := by
  refine ⟨zinb_nan_example true, ?_, fun h => Val.noConfusion h⟩
  simp only [ZINB.loss]
  rw [zinb_nan_example true]
  simp only [if_true, reduceMeanV]
  rw [show nelemV [Val.nan] = (1:ℝ) from rfl]
  norm_num [nan2zero, sumV, Val.add, divV, nan2inf]

/-- C7 amended: the NaN-to-infinity mapping of ZINB applies to the reduced
scalar, not per element: under the plain-mean reduction any per-element NaN
makes the final loss plus infinity, but under the masked reduction the
per-element NaNs are zeroed and excluded from the count by reduce_mean and
only a NaN surviving in the reduced scalar is mapped to plus infinity. -/
theorem C7_amended_theorem :
    (∀ (cfg : NBCfg) (pl : List ℝ) (lr : ℝ) (y : List Val) (mu : List ℝ),
      cfg.masking = false → Val.nan ∈ ZINB.lossElems cfg pl lr y mu →
      ZINB.loss cfg pl lr y mu = Val.pinf)
    ∧ (∀ (cfg : NBCfg) (pl : List ℝ) (lr : ℝ) (y : List Val) (mu : List ℝ),
      cfg.masking = true →
      ZINB.loss cfg pl lr y mu
        = nan2inf (divV (sumV ((ZINB.lossElems cfg pl lr y mu).map nan2zero))
            (nelemV (ZINB.lossElems cfg pl lr y mu)))) := by
  constructor
  · intro cfg pl lr y mu hm hmem
    simp only [ZINB.loss, hm, Bool.false_eq_true, if_false]
    rw [sumV_eq_nan hmem, divV_nan]
    rfl
  · intro cfg pl lr y mu hm
    simp only [ZINB.loss, hm, if_true, reduceMeanV]

/-- C7 witness: the unmasked NaN-to-infinity behaviour at a concrete input
with a NaN element. -/
theorem C7_witness :
    ZINB.loss ⟨[1], false, 1⟩ [3] 0 [Val.fin 1] [1] = Val.pinf :=
  C7_amended_theorem.1 ⟨[1], false, 1⟩ [3] 0 [Val.fin 1] [1] rfl
    (by rw [zinb_nan_example false]; exact List.mem_singleton.2 rfl)

/-- C3 witness: the loss formula and reduction characterization at a
concrete input (including an all-missing masked tensor). -/
theorem C3_witness :
    (NB.lossElems ⟨[], false, 1⟩ [1] ([(2:ℝ)].map Val.fin) [1]
       = (List.zipWith (fun yv q => nbClaimFormula 1 q.1 yv q.2)
             [(2:ℝ)] ([(1:ℝ)].zip [1])).map Val.fin)
    ∧ (∀ t m : ℝ, nan2inf (nbElemV t m Val.nan) = Val.pinf)
    ∧ (NB.loss ⟨[], true, 1⟩ [1] [Val.nan] [1]
       = Val.fin ((List.zipWith (fun yv q => nbClaimFormula 1 q.1 yv q.2)
             (toZeroed [Val.nan]) ([(1:ℝ)].zip [1])).sum / nelemV [Val.nan]))
    ∧ (NB.loss ⟨[], false, 1⟩ [1] ([(2:ℝ)].map Val.fin) [1]
       = Val.fin ((List.zipWith (fun yv q => nbClaimFormula 1 q.1 yv q.2)
             [(2:ℝ)] ([(1:ℝ)].zip [1])).sum / [(2:ℝ)].length)) :=
  C3_nb_loss [] [1] [1] [2] [Val.nan] 1
    (by intro v hv; simp at hv; subst hv; left; rfl) rfl rfl (by simp)

end
